import Mathlib

/-!
Shallow embedding of the logproof test-support conversion layer
(`logproof/src/test.rs`) of the Sunscreen repository, together with proofs
of the specified properties.

Machine integers are modelled as `Nat`/`Int` with explicit wrapping where
the source performs a narrowing cast; fallible operations return an
`Outcome` value whose `panicked` constructor models a Rust panic (an
`unwrap` of a failed fallible operation or an out-of-bounds slice) and
whose `failed` constructor models a typed error returned to the caller.
-/

set_option maxHeartbeats 1000000

/-- Embedding of `strip_trailing_value` (test.rs lines 45-54): repeatedly
remove the last element while it equals `trim_value`.  The Rust loop that
pops from the back while the last element matches is exactly: reverse,
drop the leading run of matches, reverse back. -/
def strip_trailing_value {T : Type} [DecidableEq T] (v : List T) (trim_value : T) : List T :=
  (v.reverse.dropWhile (fun c => decide (c = trim_value))).reverse

/-- Length of the trailing run of elements equal to `z` in `v` (the number
of elements `strip_trailing_value` removes). -/
def trailing_run {T : Type} [DecidableEq T] (v : List T) (z : T) : Nat :=
  (v.reverse.takeWhile (fun c => decide (c = z))).length

/-- Two's-complement narrowing of an integer to a signed 64-bit value,
modelling Rust's `as i64` cast. -/
def toI64 (x : Int) : Int :=
  let r := x % (2 : Int) ^ 64
  if r < (2 : Int) ^ 63 then r else r - (2 : Int) ^ 64

/-- Embedding of the per-word decode step of `convert_to_smallint`
(test.rs lines 82-86): a coefficient word above `first_coefficient / 2`
is interpreted as negative via a widening signed subtraction (exact at
the `i128` width used by the source, since both operands are below
`2^64`) followed by the `as i64` narrowing cast. -/
def small_coeff (first_coefficient : Nat) (coeff : Nat) : Int :=
  if first_coefficient / 2 < coeff then
    toI64 ((coeff : Int) - (first_coefficient : Int))
  else
    toI64 (coeff : Int)

/-- Modelled from the spec: the opaque `PolynomialArray` of the `seal_fhe`
crate (repository code outside the embedded sources) is visible to this
layer only through the accessors listed in the spec's external-interface
section: number of polynomials, polynomial-modulus degree,
coefficient-modulus limb count, a flattened RNS-encoded word view and a
flattened multiprecision word view. -/
structure PolynomialArray where
  num_polynomials : Nat
  poly_modulus_degree : Nat
  coeff_modulus_size : Nat
  rns_u64s : List Nat
  multiprecision_u64s : List Nat
deriving DecidableEq

/-- Embedding of `convert_to_smallint` (test.rs lines 62-93): decode every
coefficient word of every polynomial from the first modulus, using the
flattened index `i * poly_modulus_degree * coeff_modulus_size + j`. -/
def convert_to_smallint (coeff_modulus : List Nat) (pa : PolynomialArray) : List (List Int) :=
  (List.range pa.num_polynomials).map (fun i =>
    (List.range pa.poly_modulus_degree).map (fun j =>
      small_coeff (coeff_modulus.headD 0)
        (pa.rns_u64s.getD (i * pa.poly_modulus_degree * pa.coeff_modulus_size + j) 0)))

/-- Embedding of `convert_to_small_coeffs` (test.rs lines 100-108): decode
then trim the trailing zeros of each polynomial. -/
def convert_to_small_coeffs (coeff_modulus : List Nat) (pa : PolynomialArray) : List (List Int) :=
  (convert_to_smallint coeff_modulus pa).map (fun v => strip_trailing_value v 0)

/-- Modelled from the spec: the round-trip property is stated for a
test-constructed encoding of a signed value as its nonnegative residue
(`s` if `s ≥ 0`, else `s + m`); this encoder is not part of the embedded
sources and follows the spec's words directly. -/
def rns_encode (m : Nat) (s : Int) : Nat :=
  (if 0 ≤ s then s else s + (m : Int)).toNat

/-- Value of a little-endian list of 64-bit words, modelling
`Uint::from_words` and the integer denoted by a multiprecision chunk. -/
def wordsVal : List Nat → Nat
  | [] => 0
  | w :: ws => w + 2 ^ 64 * wordsVal ws

/-- The `n` little-endian 64-bit limbs of `v`, modelling `as_limbs` of an
`n`-limb `Uint`. -/
def limbsOf : Nat → Nat → List Nat
  | 0, _ => []
  | n + 1, v => v % 2 ^ 64 :: limbsOf n (v / 2 ^ 64)

/-- The error kinds of the conversion layer (spec error-handling design). -/
inductive ConvErr where
  | OutOfRangeConversion
  | ZeroModulus
deriving DecidableEq

/-- Result channel of an embedded Rust computation: a normal value, a
panic (abort), or a typed error returned to the caller. -/
inductive Outcome (α : Type) where
  | ok (val : α)
  | panicked
  | failed (e : ConvErr)
deriving DecidableEq

/-- Modelled from the spec: `Zq::try_from` of the `sunscreen_math` crate
(repository code outside the embedded sources) is a fallible conversion
from a fixed-width unsigned integer that fails with an out-of-range error
exactly when the value is not a valid residue for the ring's modulus `q`. -/
def zq_try_from (q v : Nat) : Except ConvErr Nat :=
  if v < q then Except.ok v else Except.error ConvErr.OutOfRangeConversion

/-- Embedding of the `.map(|y| Zq::try_from(*y).unwrap())` step of
`convert_to_polynomial` (test.rs line 156): each coefficient goes through
the fallible conversion and a failed conversion is unwrapped, i.e. turned
into a panic. -/
def map_unwrap (q : Nat) : List Nat → Outcome (List Nat)
  | [] => Outcome.ok []
  | y :: t =>
    match zq_try_from q y with
    | Except.ok v =>
      match map_unwrap q t with
      | Outcome.ok r => Outcome.ok (v :: r)
      | Outcome.panicked => Outcome.panicked
      | Outcome.failed e => Outcome.failed e
    | Except.error _ => Outcome.panicked

/-- Fuel-indexed chunking; the fuel (an upper bound on the list length)
only makes the recursion structural, every step consumes at least one
element so `l.length` fuel always suffices. -/
def chunksFuel {α : Type} (s : Nat) : Nat → List α → List (List α)
  | _, [] => []
  | 0, _ :: _ => []
  | fuel + 1, x :: xs => (x :: xs.take s) :: chunksFuel s fuel (xs.drop s)

/-- Embedding of Rust's slice `chunks(size)`: split into consecutive
chunks of `size` elements, the last chunk possibly shorter.  Callers of
`chunks(0)` panic in Rust; the embedded callers return `panicked` before
ever invoking this function with `size = 0`. -/
def chunks_of {α : Type} (size : Nat) (l : List α) : List (List α) :=
  match size with
  | 0 => []
  | s + 1 => chunksFuel s l.length l

/-- Embedding of the multiprecision-extraction stage of
`convert_to_polynomial` (test.rs lines 139-147): split the flattened words
into chunks of `coeff_modulus_size` words and build an `N`-limb integer
from the first `N` words of each chunk.  A chunk shorter than `N` makes
the slice `x[0..N]` panic, and `chunks(0)` panics. -/
def extract_bigints (N chunk : Nat) (mp : List Nat) : Outcome (List Nat) :=
  if chunk = 0 then Outcome.panicked
  else if (chunks_of chunk mp).all (fun c => decide (N ≤ c.length)) then
    Outcome.ok ((chunks_of chunk mp).map (fun c => wordsVal (c.take N)))
  else Outcome.panicked

/-- Embedding of the per-polynomial stage of `convert_to_polynomial`
(test.rs lines 149-160): strip the trailing zero coefficients of each
group and convert every remaining big integer to a ring element,
unwrapping (panicking on) a failed conversion. -/
def poly_rows (q : Nat) : List (List Nat) → Outcome (List (List Nat))
  | [] => Outcome.ok []
  | g :: t =>
    match map_unwrap q (strip_trailing_value g 0) with
    | Outcome.ok r =>
      match poly_rows q t with
      | Outcome.ok rs => Outcome.ok (r :: rs)
      | Outcome.panicked => Outcome.panicked
      | Outcome.failed e => Outcome.failed e
    | Outcome.panicked => Outcome.panicked
    | Outcome.failed e => Outcome.failed e

/-- Embedding of `convert_to_polynomial` (test.rs lines 131-161) over a
ring `Zq<N, B>` of modulus `q` with `N` limbs: extract the `N`-limb
integers, group them into polynomials of `poly_modulus_degree`
coefficients (`chunks(0)` panics when the degree is zero), normalize and
convert each group. -/
def convert_to_polynomial (q N chunk degree : Nat) (mp : List Nat) : Outcome (List (List Nat)) :=
  match extract_bigints N chunk mp with
  | Outcome.ok vals =>
    if degree = 0 then Outcome.panicked
    else poly_rows q (chunks_of degree vals)
  | Outcome.panicked => Outcome.panicked
  | Outcome.failed e => Outcome.failed e

/-- Embedding of `bfv_delta` (test.rs lines 171-178).  The `NonZero`
wrapper around the plaintext modulus is unwrapped before the division, so
a zero modulus panics before any division is attempted.  The quotient is
taken at the full 4-limb width of `ZqRistretto` (the source ring's
`into_bigint` width) and its low `N` limbs are kept; `limbs[0..N]` panics
when `N` exceeds the 4-limb source width. -/
def bfv_delta (N : Nat) (q t : Nat) : Outcome (List Nat) :=
  if t = 0 then Outcome.panicked
  else
    let delta := q / t
    let limbs := limbsOf 4 delta
    if N ≤ 4 then Outcome.ok (limbs.take N) else Outcome.panicked

theorem head_dropWhile_eq_false {α : Type} (p : α → Bool) :
    ∀ (l : List α) (a : α), (l.dropWhile p).head? = some a → p a = false := by
  intro l
  induction l with
  | nil => intro a h; simp [List.dropWhile] at h
  | cons x xs ih =>
    intro a h
    rw [List.dropWhile_cons] at h
    by_cases hx : p x
    · exact ih a (by simpa [hx] using h)
    · simp [hx] at h
      cases hpx : p x with
      | true => exact absurd hpx hx
      | false => rw [← h]; exact hpx

theorem dropWhile_idem {α : Type} (p : α → Bool) :
    ∀ l : List α, (l.dropWhile p).dropWhile p = l.dropWhile p := by
  intro l
  induction l with
  | nil => rfl
  | cons x xs ih =>
    simp only [List.dropWhile_cons]
    by_cases h : p x
    · simp [h, ih]
    · simp [List.dropWhile_cons, h]

theorem wordsVal_append (l1 l2 : List Nat) :
    wordsVal (l1 ++ l2) = wordsVal l1 + 2 ^ (64 * l1.length) * wordsVal l2 := by
  induction l1 with
  | nil => simp [wordsVal]
  | cons w ws ih =>
    have h1 : (w :: ws) ++ l2 = w :: (ws ++ l2) := rfl
    rw [h1, wordsVal, wordsVal, ih, List.length_cons]
    have h2 : 64 * (ws.length + 1) = 64 * ws.length + 64 := by ring
    rw [h2, pow_add]
    ring

theorem wordsVal_all_zero (l : List Nat) (h : ∀ w ∈ l, w = 0) : wordsVal l = 0 := by
  induction l with
  | nil => rfl
  | cons w ws ih =>
    have hw : w = 0 := h w (List.mem_cons_self w ws)
    have hws : wordsVal ws = 0 := ih (fun x hx => h x (List.mem_cons_of_mem w hx))
    simp [wordsVal, hw, hws]

/-- C3: in the multiprecision reconstructor, a chunk whose words beyond
index `N - 1` are all zero denotes the same integer as its first `N`
words: the discarded trailing words do not change the reconstructed
value. -/
theorem chunk_discard_exact (N : Nat) (c : List Nat) (h : ∀ w ∈ c.drop N, w = 0) :
    wordsVal (c.take N) = wordsVal c := by
  conv_rhs => rw [← List.take_append_drop N c]
  rw [wordsVal_append, wordsVal_all_zero _ h, Nat.mul_zero, Nat.add_zero]

theorem chunk_discard_exact_witness :
    wordsVal (List.take 1 [3, 0, 0]) = wordsVal [3, 0, 0] :=
  chunk_discard_exact 1 [3, 0, 0] (by decide)

/-- C5: with a zero plaintext modulus the scheme parameter calculator
fails (the `NonZero` unwrap panics) for every ciphertext modulus, before
any division is attempted: in `bfv_delta` the quotient is only formed in
the branch where the plaintext modulus is nonzero. -/
theorem bfv_delta_zero_modulus (N q : Nat) : bfv_delta N q 0 = Outcome.panicked := rfl

/-- C6: the sequence trimmer returns a prefix of its input: the result is
no longer than the input, the input is the result followed by the removed
trailing run of the trim value, and the result has no trailing element
equal to the trim value. -/
theorem strip_trailing_value_spec {T : Type} [DecidableEq T] (v : List T) (z : T) :
    (strip_trailing_value v z).length ≤ v.length ∧
    v = strip_trailing_value v z
      ++ List.replicate (v.length - (strip_trailing_value v z).length) z ∧
    (strip_trailing_value v z).getLast? ≠ some z := by
  have hsplit := List.takeWhile_append_dropWhile (p := fun c => decide (c = z)) (l := v.reverse)
  have hlen : (v.reverse.takeWhile (fun c => decide (c = z))).length
      + (v.reverse.dropWhile (fun c => decide (c = z))).length = v.length := by
    have h2 := congrArg List.length hsplit
    rw [List.length_append, List.length_reverse] at h2
    exact h2
  have hstriplen : (strip_trailing_value v z).length
      = (v.reverse.dropWhile (fun c => decide (c = z))).length := by
    unfold strip_trailing_value
    simp
  refine ⟨?_, ?_, ?_⟩
  · rw [hstriplen]; omega
  · have htake : ∀ b ∈ (v.reverse.takeWhile (fun c => decide (c = z))).reverse, b = z := by
      intro b hb
      have hb2 : b ∈ v.reverse.takeWhile (fun c => decide (c = z)) := by
        simpa using hb
      have h3 := List.mem_takeWhile_imp hb2
      simpa using h3
    have hrepl : (v.reverse.takeWhile (fun c => decide (c = z))).reverse
        = List.replicate (v.length - (strip_trailing_value v z).length) z := by
      have h4 := List.eq_replicate_length.mpr htake
      rw [h4]
      congr 1
      simp only [List.length_reverse]
      omega
    conv_lhs => rw [← List.reverse_reverse v, ← hsplit]
    rw [List.reverse_append, hrepl]
    rfl
  · intro hcon
    have h1 : (v.reverse.dropWhile (fun c => decide (c = z))).head? = some z := by
      unfold strip_trailing_value at hcon
      rw [List.getLast?_reverse] at hcon
      exact hcon
    have h5 := head_dropWhile_eq_false (fun c => decide (c = z)) v.reverse z h1
    simp at h5

/-- C9: the sequence trimmer is idempotent. -/
theorem strip_trailing_value_idem {T : Type} [DecidableEq T] (v : List T) (z : T) :
    strip_trailing_value (strip_trailing_value v z) z = strip_trailing_value v z := by
  unfold strip_trailing_value
  rw [List.reverse_reverse, dropWhile_idem]

theorem toI64_eq_self (x : Int) (h1 : -(2 : Int) ^ 63 ≤ x) (h2 : x < (2 : Int) ^ 63) :
    toI64 x = x := by
  have e64 : (2 : Int) ^ 64 = 18446744073709551616 := by norm_num
  have e63 : (2 : Int) ^ 63 = 9223372036854775808 := by norm_num
  rw [e63] at h1 h2
  unfold toI64
  simp only [e64, e63]
  split <;> omega

/-- C2: for the first reference modulus `m` and any coefficient word `c`
in `[0, m)`, the decoded value is congruent to `c` modulo `m` and is the
unique centered representative: `-m/2 < d ≤ m/2`, stated integrally as
`-m < 2*d` and `2*d ≤ m`. -/
theorem small_coeff_centered (m c : Nat) (hm : m < 2 ^ 64) (hc : c < m) :
    Int.ModEq (m : Int) (small_coeff m c) (c : Int) ∧
    -(m : Int) < 2 * small_coeff m c ∧ 2 * small_coeff m c ≤ (m : Int) := by
  norm_num at hm
  have e63 : (2 : Int) ^ 63 = 9223372036854775808 := by norm_num
  by_cases h : m / 2 < c
  · have hv : small_coeff m c = (c : Int) - (m : Int) := by
      unfold small_coeff
      rw [if_pos h]
      refine toI64_eq_self _ ?_ ?_ <;> (rw [e63]; omega)
    refine ⟨?_, ?_, ?_⟩
    · rw [hv, Int.modEq_iff_dvd]
      have hd : (c : Int) - ((c : Int) - (m : Int)) = (m : Int) := by ring
      rw [hd]
    · rw [hv]; omega
    · rw [hv]; omega
  · have hv : small_coeff m c = (c : Int) := by
      unfold small_coeff
      rw [if_neg h]
      refine toI64_eq_self _ ?_ ?_ <;> (rw [e63]; omega)
    refine ⟨?_, ?_, ?_⟩
    · rw [hv]
    · rw [hv]; omega
    · rw [hv]; omega

theorem small_coeff_centered_witness :
    Int.ModEq ((7 : Nat) : Int) (small_coeff 7 5) (((5 : Nat)) : Int) ∧
    -((7 : Nat) : Int) < 2 * small_coeff 7 5 ∧ 2 * small_coeff 7 5 ≤ ((7 : Nat) : Int) :=
  small_coeff_centered 7 5 (by norm_num) (by norm_num)

/-- C7: a signed value in the centered range `(-m/2, m/2]`, encoded as its
nonnegative residue modulo `m` and decoded with the small-integer
decoder, is reproduced exactly. -/
theorem rns_roundtrip (m : Nat) (s : Int) (hm : m < 2 ^ 64) (hlo : -(m : Int) < 2 * s)
    (hhi : 2 * s ≤ (m : Int)) : small_coeff m (rns_encode m s) = s := by
  norm_num at hm
  have e63 : (2 : Int) ^ 63 = 9223372036854775808 := by norm_num
  by_cases hs : 0 ≤ s
  · have henc : rns_encode m s = s.toNat := by unfold rns_encode; rw [if_pos hs]
    have hcast : ((s.toNat : Nat) : Int) = s := Int.toNat_of_nonneg hs
    have hnlt : ¬ (m / 2 < s.toNat) := by omega
    rw [henc]
    unfold small_coeff
    rw [if_neg hnlt, hcast]
    refine toI64_eq_self _ ?_ ?_ <;> (rw [e63]; omega)
  · have henc : rns_encode m s = (s + (m : Int)).toNat := by unfold rns_encode; rw [if_neg hs]
    have hgt : m / 2 < (s + (m : Int)).toNat := by omega
    rw [henc]
    unfold small_coeff
    rw [if_pos hgt]
    have hcast : (((s + (m : Int)).toNat : Nat) : Int) = s + (m : Int) :=
      Int.toNat_of_nonneg (by omega)
    rw [hcast]
    have hsub : (s + (m : Int)) - (m : Int) = s := by ring
    rw [hsub]
    refine toI64_eq_self _ ?_ ?_ <;> (rw [e63]; omega)

theorem rns_roundtrip_witness : small_coeff 7 (rns_encode 7 (-3)) = -3 :=
  rns_roundtrip 7 (-3) (by norm_num) (by norm_num) (by norm_num)

theorem limbsOf_take : ∀ (k n v : Nat), k ≤ n → (limbsOf n v).take k = limbsOf k v := by
  intro k
  induction k with
  | zero => intro n v _; simp [limbsOf]
  | succ k ih =>
    intro n v h
    cases n with
    | zero => exact absurd h (by omega)
    | succ n =>
      simp only [limbsOf, List.take_succ_cons]
      rw [ih n (v / 2 ^ 64) (by omega)]

theorem wordsVal_limbsOf : ∀ (n v : Nat), v < 2 ^ (64 * n) → wordsVal (limbsOf n v) = v := by
  intro n
  induction n with
  | zero =>
    intro v h
    norm_num at h
    simp [limbsOf, wordsVal, h]
  | succ n ih =>
    intro v h
    simp only [limbsOf, wordsVal]
    have hp : 2 ^ (64 * (n + 1)) = 2 ^ 64 * 2 ^ (64 * n) := by
      rw [← pow_add]
      congr 1
      ring
    have hdiv : v / 2 ^ 64 < 2 ^ (64 * n) := by
      apply Nat.div_lt_of_lt_mul
      rw [← hp]
      exact h
    rw [ih _ hdiv]
    exact Nat.mod_add_div v (2 ^ 64)

/-- C1: for every ciphertext modulus (a value at the full 4-limb source
width) and nonzero plaintext modulus whose quotient fits in the `N` limbs
of the target width (with `N` at most the 4-limb source width), the
scheme parameter calculator returns exactly the `N`-limb representation
of `floor(q / t)`. -/
theorem bfv_delta_exact (N q t : Nat) (ht : t ≠ 0) (hN : N ≤ 4) (_hq : q < 2 ^ 256)
    (hfit : q / t < 2 ^ (64 * N)) :
    bfv_delta N q t = Outcome.ok (limbsOf N (q / t)) ∧
    wordsVal (limbsOf N (q / t)) = q / t := by
  constructor
  · simp only [bfv_delta, if_neg ht, if_pos hN]
    rw [limbsOf_take N 4 _ hN]
  · exact wordsVal_limbsOf N (q / t) hfit

theorem bfv_delta_exact_witness :
    (bfv_delta 1 100 7 = Outcome.ok (limbsOf 1 (100 / 7)) ∧
      wordsVal (limbsOf 1 (100 / 7)) = 100 / 7) ∧
    bfv_delta 1 100 7 = Outcome.ok [14] :=
  ⟨bfv_delta_exact 1 100 7 (by norm_num) (by norm_num) (by norm_num) (by norm_num), by decide⟩

theorem strip_length_eq {T : Type} [DecidableEq T] (v : List T) (z : T) :
    (strip_trailing_value v z).length = v.length - trailing_run v z := by
  have hsplit := List.takeWhile_append_dropWhile (p := fun c => decide (c = z)) (l := v.reverse)
  have h2 := congrArg List.length hsplit
  rw [List.length_append, List.length_reverse] at h2
  unfold strip_trailing_value trailing_run
  simp only [List.length_reverse]
  omega

theorem strip_all_zero {T : Type} [DecidableEq T] (v : List T) (z : T) (h : ∀ x ∈ v, x = z) :
    strip_trailing_value v z = [] := by
  unfold strip_trailing_value
  have hd : v.reverse.dropWhile (fun c => decide (c = z)) = [] := by
    rw [List.dropWhile_eq_nil_iff]
    intro x hx
    simp [h x (List.mem_reverse.mp hx)]
  rw [hd]
  rfl

/-- C8: each output row of the small-coefficient polynomial builder has
length equal to the input polynomial degree minus the length of the
trailing run of zero decoded coefficients, and a row whose decoded
coefficients are all zero becomes the empty coefficient sequence. -/
theorem convert_to_small_coeffs_norm (cm : List Nat) (pa : PolynomialArray) (i : Nat)
    (hi : i < pa.num_polynomials) :
    ((convert_to_small_coeffs cm pa).getD i []).length
      = pa.poly_modulus_degree - trailing_run ((convert_to_smallint cm pa).getD i []) 0 ∧
    ((∀ x ∈ (convert_to_smallint cm pa).getD i [], x = (0 : Int)) →
      (convert_to_small_coeffs cm pa).getD i [] = []) := by
  have hl : i < (convert_to_smallint cm pa).length := by
    simpa [convert_to_smallint] using hi
  have hl2 : i < (convert_to_small_coeffs cm pa).length := by
    simpa [convert_to_small_coeffs, convert_to_smallint] using hi
  have hrow2 : (convert_to_small_coeffs cm pa).getD i []
      = strip_trailing_value ((convert_to_smallint cm pa).getD i []) 0 := by
    rw [List.getD_eq_getElem _ _ hl2, List.getD_eq_getElem _ _ hl]
    simp [convert_to_small_coeffs]
  have hrowlen : ((convert_to_smallint cm pa).getD i []).length = pa.poly_modulus_degree := by
    rw [List.getD_eq_getElem _ _ hl]
    unfold convert_to_smallint
    simp
  constructor
  · rw [hrow2, strip_length_eq, hrowlen]
  · intro hz
    rw [hrow2]
    exact strip_all_zero _ _ hz

theorem convert_to_small_coeffs_norm_witness :
    ((convert_to_small_coeffs [7] (PolynomialArray.mk 1 3 1 [5, 0, 0] [])).getD 0 []).length
      = 3 - trailing_run
          ((convert_to_smallint [7] (PolynomialArray.mk 1 3 1 [5, 0, 0] [])).getD 0 []) 0 ∧
    ((∀ x ∈ (convert_to_smallint [7] (PolynomialArray.mk 1 3 1 [5, 0, 0] [])).getD 0 [],
        x = (0 : Int)) →
      (convert_to_small_coeffs [7] (PolynomialArray.mk 1 3 1 [5, 0, 0] [])).getD 0 [] = []) :=
  convert_to_small_coeffs_norm [7] (PolynomialArray.mk 1 3 1 [5, 0, 0] []) 0 (by norm_num)

theorem chunksFuel_len {α : Type} (s : Nat) :
    ∀ (fuel : Nat) (l : List α), l.length ≤ fuel → (s + 1) ∣ l.length →
      ∀ c ∈ chunksFuel s fuel l, c.length = s + 1 := by
  intro fuel
  induction fuel with
  | zero =>
    intro l hl _ c hc
    have hnil : l = [] := by
      cases l with
      | nil => rfl
      | cons x xs => simp at hl
    subst hnil
    simp [chunksFuel] at hc
  | succ f ih =>
    intro l hl hdvd c hc
    cases l with
    | nil => simp [chunksFuel] at hc
    | cons x xs =>
      simp only [chunksFuel] at hc
      rcases List.mem_cons.mp hc with h1 | h2
      · subst h1
        simp only [List.length_cons, List.length_take]
        have hge : s + 1 ≤ xs.length + 1 := by
          apply Nat.le_of_dvd (by omega)
          simpa using hdvd
        omega
      · have hlen : (xs.drop s).length ≤ f := by
          simp only [List.length_drop]
          have hx : xs.length + 1 ≤ f + 1 := by simpa using hl
          omega
        have hdvd2 : (s + 1) ∣ (xs.drop s).length := by
          simp only [List.length_drop]
          have hd : (s + 1) ∣ (xs.length + 1) := by simpa using hdvd
          have hsub := Nat.dvd_sub' hd (dvd_refl (s + 1))
          have he : xs.length + 1 - (s + 1) = xs.length - s := by omega
          rwa [he] at hsub
        exact ih (xs.drop s) hlen hdvd2 c h2

theorem chunks_of_len {α : Type} (size : Nat) (hs : 0 < size) (l : List α)
    (hdvd : size ∣ l.length) : ∀ c ∈ chunks_of size l, c.length = size := by
  cases size with
  | zero => exact absurd hs (by omega)
  | succ s =>
    intro c hc
    exact chunksFuel_len s l.length l (Nat.le_refl _) hdvd c hc

theorem chunks_of_cons {α : Type} (s : Nat) (x : α) (xs : List α) :
    chunks_of (s + 1) (x :: xs) = (x :: xs.take s) :: chunksFuel s xs.length (xs.drop s) := rfl

/-- C10: the multiprecision reconstructor requires the backend chunk size
to be at least the ring limb count `N`: when it is, and the flattened
buffer length is a multiple of the chunk size, extracting the first `N`
words of every chunk succeeds; when the chunk size is smaller than `N`
and the buffer is nonempty, the slice `x[0..N]` is out of range for a
chunk and the whole conversion panics instead of returning a result. -/
theorem convert_to_polynomial_chunk_bound (q N chunk degree : Nat) (mp : List Nat)
    (hN : 0 < N) :
    (N ≤ chunk → chunk ∣ mp.length →
      ∃ vals, extract_bigints N chunk mp = Outcome.ok vals) ∧
    (chunk < N → mp ≠ [] →
      convert_to_polynomial q N chunk degree mp = Outcome.panicked) := by
  constructor
  · intro hle hdvd
    have hc0 : ¬ (chunk = 0) := by omega
    refine ⟨(chunks_of chunk mp).map (fun c => wordsVal (c.take N)), ?_⟩
    have hall : (chunks_of chunk mp).all (fun c => decide (N ≤ c.length)) = true := by
      rw [List.all_eq_true]
      intro c hcmem
      have hcl := chunks_of_len chunk (by omega) mp hdvd c hcmem
      simp [hcl, hle]
    unfold extract_bigints
    rw [if_neg hc0, if_pos hall]
  · intro hlt hne
    have hpan : extract_bigints N chunk mp = Outcome.panicked := by
      by_cases hc0 : chunk = 0
      · subst hc0
        unfold extract_bigints
        rw [if_pos rfl]
      · obtain ⟨s, rfl⟩ : ∃ s, chunk = s + 1 := ⟨chunk - 1, by omega⟩
        obtain ⟨x, xs, rfl⟩ : ∃ x xs, mp = x :: xs := by
          cases mp with
          | nil => exact absurd rfl hne
          | cons x xs => exact ⟨x, xs, rfl⟩
        unfold extract_bigints
        rw [if_neg hc0, chunks_of_cons, List.all_cons]
        have hfirst : decide (N ≤ (x :: xs.take s).length) = false := by
          apply decide_eq_false
          simp only [List.length_cons, List.length_take]
          omega
        rw [hfirst]
        simp
    unfold convert_to_polynomial
    rw [hpan]

theorem convert_to_polynomial_chunk_bound_witness :
    (∃ vals, extract_bigints 1 1 [5, 6] = Outcome.ok vals) ∧
    convert_to_polynomial 7 2 1 3 [5] = Outcome.panicked :=
  ⟨(convert_to_polynomial_chunk_bound 7 1 1 3 [5, 6] (by norm_num)).1 (by norm_num) (by norm_num),
    (convert_to_polynomial_chunk_bound 7 2 1 3 [5] (by norm_num)).2 (by norm_num) (by
      intro h
      simp at h)⟩

/-- C4 counterexample: at the concrete input of one chunk holding the
value 7 under ring modulus 5 (not a valid residue), the multiprecision
reconstructor panics (the `unwrap` of the failed conversion aborts); it
does not return the out-of-range failure as a typed error to its
caller. -/
theorem out_of_range_abort_counterex :
    convert_to_polynomial 5 1 1 1 [7] = Outcome.panicked ∧
    convert_to_polynomial 5 1 1 1 [7] ≠ Outcome.failed ConvErr.OutOfRangeConversion := by
  decide

/-- C4 amended: when the reconstructor meets a fixed-limb integer that is
not a valid residue for the ring's modulus, the fallible ring conversion
itself fails with a typed out-of-range error delivered to its immediate
caller inside `convert_to_polynomial`, which unwraps it, so the whole
reconstruction aborts (panics) rather than silently coercing the value or
returning the typed error onward. -/
theorem out_of_range_panics (q v : Nat) (hq : 0 < q) (hv : q ≤ v) :
    zq_try_from q v = Except.error ConvErr.OutOfRangeConversion ∧
    convert_to_polynomial q 1 1 1 [v] = Outcome.panicked := by
  have hnlt : ¬ (v < q) := by omega
  have hv0 : ¬ ((v : Nat) = 0) := by omega
  have htry : zq_try_from q v = Except.error ConvErr.OutOfRangeConversion := by
    unfold zq_try_from
    rw [if_neg hnlt]
  refine ⟨htry, ?_⟩
  have hex : extract_bigints 1 1 [v] = Outcome.ok [v] := by
    have hw : wordsVal [v] = v := by simp [wordsVal]
    have hch : chunks_of 1 [v] = [[v]] := rfl
    unfold extract_bigints
    rw [if_neg (by norm_num : ¬ ((1 : Nat) = 0)), hch]
    norm_num [wordsVal]
  have hstrip : strip_trailing_value [v] (0 : Nat) = [v] := by
    unfold strip_trailing_value
    simp [List.dropWhile, hv0]
  have hmu : map_unwrap q [v] = Outcome.panicked := by
    unfold map_unwrap
    rw [htry]
  unfold convert_to_polynomial
  rw [hex]
  show poly_rows q (chunks_of 1 [v]) = Outcome.panicked
  have hch2 : chunks_of 1 [v] = [[v]] := rfl
  rw [hch2]
  unfold poly_rows
  rw [hstrip, hmu]

theorem out_of_range_panics_witness :
    zq_try_from 5 7 = Except.error ConvErr.OutOfRangeConversion ∧
    convert_to_polynomial 5 1 1 1 [7] = Outcome.panicked :=
  out_of_range_panics 5 7 (by norm_num) (by norm_num)
